import Mathlib

set_option maxRecDepth 8192

/-!
Verification of the game-definition module of sc3tools (src/gamedef.rs):
the row-aligned charset table builder of `GameDef::new`, the nom grammar
for compound-character declarations (`PuaMapping::parse`), their expansion
into a codepoint map (`parse_compound_ch_map`), the missing-codepoint
diagnostic of the profile constructor, and alias lookup (`get_by_alias`).

Characters are Lean `Char`s.  Codepoints parsed from hexadecimal are
modelled as `Nat` together with the Unicode-scalar-value predicate that
`std::char::from_u32` checks; Rust's iteration over a
`RangeInclusive<char>` yields exactly the scalar values between the two
endpoints, which `rangeList` reproduces.
-/

/- ----------------------------------------------------------------- -/
/- Row-aligned table builder (GameDef::new, lines 123-144)           -/
/- ----------------------------------------------------------------- -/

/-- Rust `(i + 64 - 1) & !(64 - 1)`: round `i` up to the next multiple
of 64 (no change if `i` is already a multiple of 64). -/
def alignUp64 (i : Nat) : Nat := (i + 63) / 64 * 64

/-- Rust `Vec::resize(n, '\0')`: the length becomes exactly `n`,
new slots filled with the null sentinel. -/
def resizeTo (cs : List Char) (n : Nat) : List Char :=
  cs.take n ++ List.replicate (n - cs.length) '\x00'

/-- The character actually stored by `charset[i] = c` after the space
rule of lines 138-140: at a nonzero position a space becomes the null
sentinel. -/
def writeChar (i : Nat) (c : Char) : Char :=
  if i ≠ 0 ∧ c = ' ' then '\x00' else c

/-- The `while j < _charset.len()` loop of `GameDef::new` with the inner
newline loop fused in.  The state is (remaining input, output cursor `i`,
`nl`, table so far); `nl = 0` at the top of the outer loop and `nl = 1`
while inside the inner newline loop, exactly as in the source.  When the
input runs out inside the inner loop the source still executes
`charset.resize(i + 1, '\0')` before the outer condition fails, hence the
`nl ≠ 0` case below. -/
def buildLoop : List Char → Nat → Nat → List Char → List Char
  | [], i, nl, cs => if nl = 0 then cs else resizeTo cs (i + 1)
  | c :: rest, i, nl, cs =>
    if c = '\n' then
      buildLoop rest (alignUp64 i + nl) 1 cs
    else
      buildLoop rest (i + 1) 0 ((resizeTo cs (i + 1)).set i (writeChar i c))

/-- The charset table built by `GameDef::new` from the (carriage-return
stripped) resource text. -/
def buildCharset (s : List Char) : List Char := buildLoop s 0 0 []

/-- The inner `while j < _charset.len() && _charset[j] == '\n'` loop of
lines 129-134 in isolation: consume a run of line breaks, returning the
remaining input and the new output cursor.  Initially `nl = 0`; each
consumed line break first aligns the cursor up to the next multiple of
64 and then adds the previous `nl`. -/
def consumeNewlines : List Char → Nat → Nat → List Char × Nat
  | '\n' :: rest, i, nl => consumeNewlines rest (alignUp64 i + nl) 1
  | s, i, _ => (s, i)

/-- `buildLoop` with the indexed write `charset[i] = ...` guarded: the
write is performed only when the target index `i` equals the length of
the just-resized table minus one (equivalently `i + 1` equals its
length), otherwise the construction is declared failed. -/
def buildLoopChecked : List Char → Nat → Nat → List Char → Option (List Char)
  | [], i, nl, cs => some (if nl = 0 then cs else resizeTo cs (i + 1))
  | c :: rest, i, nl, cs =>
    if c = '\n' then
      buildLoopChecked rest (alignUp64 i + nl) 1 cs
    else
      if i + 1 = (resizeTo cs (i + 1)).length then
        buildLoopChecked rest (i + 1) 0 ((resizeTo cs (i + 1)).set i (writeChar i c))
      else
        none

/-- Checked variant of `buildCharset`. -/
def buildCharsetChecked (s : List Char) : Option (List Char) :=
  buildLoopChecked s 0 0 []

/-- The table produced for newline-free input: character `c` at input
position `k` is stored as `writeChar k c`. -/
def noNlTable (i : Nat) : List Char → List Char
  | [] => []
  | c :: rest => writeChar i c :: noNlTable (i + 1) rest

/-- Rust `.replace("\r", "")` applied to the charset resource. -/
def stripCR (s : List Char) : List Char := s.filter (fun c => !(c == '\r'))

/- ----------------------------------------------------------------- -/
/- Compound-declaration grammar (PuaMapping::parse, nom)             -/
/- ----------------------------------------------------------------- -/

/-- Hexadecimal digits accepted by `u32::from_str_radix(_, 16)`. -/
def isHexDigitCh (c : Char) : Bool :=
  (decide ('0' ≤ c) && decide (c ≤ '9')) ||
  (decide ('a' ≤ c) && decide (c ≤ 'f')) ||
  (decide ('A' ≤ c) && decide (c ≤ 'F'))

/-- Numeric value of a hexadecimal digit. -/
def hexDigitVal (c : Char) : Nat :=
  if 'a' ≤ c then c.toNat - 87
  else if 'A' ≤ c then c.toNat - 55
  else c.toNat - 48

/-- Rust `u32::from_str_radix(s, 16)`: an optional leading `+`, then one
or more hexadecimal digits; the value must fit in a `u32`. -/
def fromStrRadix16 (s : List Char) : Option Nat :=
  let digits := match s with
    | '+' :: r => r
    | r => r
  if digits.isEmpty then none
  else if digits.all isHexDigitCh then
    let v := digits.foldl (fun a c => a * 16 + hexDigitVal c) 0
    if v < 2 ^ 32 then some v else none
  else none

/-- Unicode scalar values: the codepoints for which
`std::char::from_u32` returns `Some`. -/
def isScalarValue (v : Nat) : Bool :=
  decide (v < 0xD800) || (decide (0xE000 ≤ v) && decide (v ≤ 0x10FFFF))

/-- Characters accepted by `is_not("-]")`. -/
def cpTokPred (c : Char) : Bool := !(c == '-') && !(c == ']')

/-- The `codepoint` parser: `is_not("-]")` (one or more characters,
failing on an empty match), the token read as hexadecimal, the value
validated by `std::char::from_u32`. -/
def pCodepoint (s : List Char) : Option (Nat × List Char) :=
  if (s.takeWhile cpTokPred).isEmpty then none
  else
    match fromStrRadix16 (s.takeWhile cpTokPred) with
    | none => none
    | some v =>
      if isScalarValue v then some (v, s.dropWhile cpTokPred) else none

/-- `opt(preceded(char('-'), codepoint))`: on any failure it backtracks
and consumes nothing. -/
def pRangeSecond (s : List Char) : Option Nat × List Char :=
  match s with
  | c :: s1 =>
    if c = '-' then
      match pCodepoint s1 with
      | some (b, r) => (some b, r)
      | none => (none, c :: s1)
    else (none, c :: s1)
  | [] => (none, [])

/-- The `range` parser: `'[' codepoint ('-' codepoint)? ']'`; a missing
second endpoint yields the one-codepoint range `a..=a`. -/
def pRange (s : List Char) : Option ((Nat × Nat) × List Char) :=
  match s with
  | c :: s1 =>
    if c = '[' then
      match pCodepoint s1 with
      | none => none
      | some (a, s2) =>
        match pRangeSecond s2 with
        | (b, s3) =>
          match s3 with
          | c2 :: s4 => if c2 = ']' then some ((a, Option.getD b a), s4) else none
          | [] => none
    else none
  | [] => none

/-- Characters accepted by nom `not_line_ending`. -/
def nlePred (c : Char) : Bool := !(c == '\n') && !(c == '\r')

/-- nom `not_line_ending` (complete): zero or more characters up to the
first `'\r'` or `'\n'`; a `'\r'` not followed by `'\n'` is an error. -/
def pNotLineEnding (s : List Char) : Option (List Char × List Char) :=
  match s.dropWhile nlePred with
  | c :: tail =>
    if c = '\r' then
      match tail with
      | c2 :: _ => if c2 = '\n' then some (s.takeWhile nlePred, c :: tail) else none
      | [] => none
    else some (s.takeWhile nlePred, c :: tail)
  | [] => some (s.takeWhile nlePred, [])

/-- nom `line_ending`: `"\n"` or `"\r\n"`. -/
def pLineEnding (s : List Char) : Option (List Char) :=
  match s with
  | c :: r =>
    if c = '\n' then some r
    else if c = '\r' then
      match r with
      | c2 :: r2 => if c2 = '\n' then some r2 else none
      | [] => none
    else none
  | [] => none

/-- A parsed declaration: an inclusive codepoint range (endpoints are
scalar values) and its substitution string. -/
structure PuaMapping where
  lo : Nat
  hi : Nat
  ch : List Char
deriving DecidableEq

/-- `PuaMapping::parse`: `range '=' not_line_ending`. -/
def pMapping (s : List Char) : Option (PuaMapping × List Char) :=
  match pRange s with
  | none => none
  | some ((lo, hi), s1) =>
    match s1 with
    | c :: s2 =>
      if c = '=' then
        match pNotLineEnding s2 with
        | none => none
        | some (chs, s3) => some (⟨lo, hi, chs⟩, s3)
      else none
    | [] => none

/-- The loop of nom `separated_list0(line_ending, PuaMapping::parse)`
after the first element: on a separator or element failure it returns
what was accumulated (the input rewound to before the separator); if
separator plus element together consumed nothing it fails with
`ErrorKind::SeparatedList`.  Each successful iteration consumes at least
one character, so fuel equal to the remaining input length never runs
out before the real loop would stop; the fuel-0 result coincides with
the loop's result there (the input is empty, so the separator fails). -/
def sepListLoop : Nat → List PuaMapping → List Char →
    Except Unit (List PuaMapping × List Char)
  | 0, acc, i => Except.ok (acc, i)
  | fuel + 1, acc, i =>
    match pLineEnding i with
    | none => Except.ok (acc, i)
    | some i1 =>
      match pMapping i1 with
      | none => Except.ok (acc, i)
      | some (m, i2) =>
        if i2.length = i.length then Except.error ()
        else sepListLoop fuel (acc ++ [m]) i2

/-- nom `separated_list0(line_ending, PuaMapping::parse)`. -/
def sepList0 (s : List Char) : Except Unit (List PuaMapping × List Char) :=
  match pMapping s with
  | none => Except.ok ([], s)
  | some (m, s1) => sepListLoop s1.length [m] s1

/- ----------------------------------------------------------------- -/
/- Expansion into the compound map (parse_compound_ch_map)           -/
/- ----------------------------------------------------------------- -/

/-- The codepoints iterated by the Rust range `lo..=hi` over `char`:
every scalar value between the endpoints, ascending (empty when
`lo > hi`). -/
def rangeList (lo hi : Nat) : List Nat :=
  (List.range' lo (hi + 1 - lo)).filter isScalarValue

/-- The `(codepoint, payload)` pairs one declaration contributes. -/
def expOne (m : PuaMapping) : List (Nat × List Char) :=
  (rangeList m.lo m.hi).map (fun cp => (cp, m.ch))

/-- The flat pair list of `.flat_map(...)` in declaration order. -/
def expandMappings (ms : List PuaMapping) : List (Nat × List Char) :=
  ms.flatMap expOne

/-- Lookup in the `HashMap` built by `.collect()` from the pair list:
insertion in iteration order, a later pair overwriting an earlier one
with the same key. -/
def mapGet (ps : List (Nat × List Char)) (cp : Nat) : Option (List Char) :=
  ps.foldl (fun acc p => if p.1 = cp then some p.2 else acc) none

/-- `parse_compound_ch_map`: run the list parser, `.unwrap()` the result
(modelled as `Except`: `error` is the panic), flatten the ranges. -/
def parseCompoundChMap (s : List Char) : Except Unit (List (Nat × List Char)) :=
  match sepList0 s with
  | Except.error e => Except.error e
  | Except.ok (ms, _) => Except.ok (expandMappings ms)

/-- Declaration `m` covers codepoint `cp`: the expansion of `m`
contains an entry for `cp`. -/
def coversB (m : PuaMapping) (cp : Nat) : Bool :=
  decide (m.lo ≤ cp) && decide (cp ≤ m.hi) && isScalarValue cp

/- ----------------------------------------------------------------- -/
/- Profile construction and the missing-codepoint diagnostic         -/
/- ----------------------------------------------------------------- -/

/-- The distinct codepoints referenced by the compound map. -/
def mapKeys (ps : List (Nat × List Char)) : List Nat :=
  (ps.map Prod.fst).dedup

/-- Modelled from the spec: the set of codepoints the external
encoding-engine builder (`EncodingMaps::new`, `crate::text`, not in
src/) reports — "every PUA codepoint referenced by the map but absent
from the table" (absent: no table slot holds that character; unused
slots hold the null sentinel). -/
def encodingMapsMissing (charset : List Char) (cmap : List (Nat × List Char)) :
    List Nat :=
  (mapKeys cmap).filter (fun cp => charset.all (fun c => !(c.toNat == cp)))

/-- Modelled from the spec: `EncodingMaps::new` succeeds exactly when no
referenced codepoint is missing from the table, and otherwise reports
the missing codepoints (`missing_pua_chars`). -/
def encodingMapsNew (charset : List Char) (cmap : List (Nat × List Char)) :
    Except (List Nat) Unit :=
  if (encodingMapsMissing charset cmap).isEmpty then Except.ok ()
  else Except.error (encodingMapsMissing charset cmap)

/-- Lowercase hexadecimal digit. -/
def hexDigitChar (n : Nat) : Char :=
  if n < 10 then Char.ofNat (48 + n) else Char.ofNat (87 + n)

/-- Minimal-width lowercase hexadecimal digits of `n` (8 digits of fuel
suffice for every `u32`). -/
def hexDigitsLowerAux : Nat → Nat → List Char → List Char
  | 0, _, acc => acc
  | f + 1, n, acc =>
    if n < 16 then hexDigitChar n :: acc
    else hexDigitsLowerAux f (n / 16) (hexDigitChar (n % 16) :: acc)

/-- Digits of Rust `char::escape_unicode` for codepoint `n`. -/
def hexDigitsLower (n : Nat) : List Char := hexDigitsLowerAux 8 n []

/-- Rust `ch.escape_unicode()`. -/
def escapeUnicode (cp : Nat) : List Char :=
  '\\' :: 'u' :: '\x7b' :: (hexDigitsLower cp ++ ['\x7d'])

/-- The panic message of `GameDef::new` on a missing-codepoint report:
the profile's display name and every missing codepoint in escaped form,
quoted and comma-separated. -/
def diagMsg (fullName : List Char) (missing : List Nat) : List Char :=
  ("Error while constructing encoding maps for ").toList ++ fullName ++
  (". The following Private Use Area characters were not found in the charset: [").toList ++
  List.intercalate ((", ").toList)
    (missing.map (fun cp => '\'' :: (escapeUnicode cp ++ ['\'']))) ++
  [']']

/-- `GameDef::new` restricted to what the claims observe: build the
charset table from the (carriage-return stripped) charset resource,
parse and expand the compound map resource, hand both to the engine
builder; on a missing-codepoint report the process aborts (`error`)
with the diagnostic message. -/
def gameDefNew (fullName charsetSrc mapSrc : List Char) :
    Except (List Char) (List Char × List (Nat × List Char)) :=
  match parseCompoundChMap mapSrc with
  | Except.error _ => Except.error []
  | Except.ok cmap =>
    match encodingMapsNew (buildCharset (stripCR charsetSrc)) cmap with
    | Except.error _ =>
      Except.error (diagMsg fullName (encodingMapsMissing (buildCharset (stripCR charsetSrc)) cmap))
    | Except.ok _ => Except.ok (buildCharset (stripCR charsetSrc), cmap)

/- ----------------------------------------------------------------- -/
/- Catalog and alias lookup                                          -/
/- ----------------------------------------------------------------- -/

/-- The static metadata of one catalog entry (the fields `get_by_alias`
and the claims observe). -/
structure GameDefMeta where
  fullName : String
  aliases : List String
deriving DecidableEq

/-- `get_by_alias`: first profile in catalog order whose alias list
contains the exact string. -/
def getByAlias (defs : List GameDefMeta) (al : String) : Option GameDefMeta :=
  defs.find? (fun d => d.aliases.contains al)

/-- Names and alias lists of the static `DEFS` catalog, in source
order. -/
def DEFS : List GameDefMeta :=
  [⟨"Steins;Gate Steam", ["sghd", "steinsgatehd"]⟩,
   ⟨"Steins;Gate Steam (Simplified Chinese)", ["sghdzhs", "steinsgatehdzhs"]⟩,
   ⟨"Robotics;Notes", ["rn", "roboticsnotes"]⟩,
   ⟨"Steins;Gate: Linear Bounded Phenogram", ["sglbp", "steinsgatelbp"]⟩,
   ⟨"Steins;Gate 0", ["sg0", "steinsgate0"]⟩,
   ⟨"Steins;Gate 0 (Simplified Chinese)", ["sg0zhs", "steinsgate0zhs"]⟩,
   ⟨"Robotics;Notes DaSH", ["rnd", "roboticsnotesdash"]⟩]

/- ================================================================= -/
/- Theorems                                                          -/
/- ================================================================= -/

lemma resizeTo_length (cs : List Char) (n : Nat) : (resizeTo cs n).length = n := by
  simp only [resizeTo, List.length_append, List.length_take, List.length_replicate]
  omega

lemma le_alignUp64 (i : Nat) : i ≤ alignUp64 i := by
  unfold alignUp64
  omega

lemma alignUp64_of_mul (m : Nat) : alignUp64 (64 * m) = 64 * m := by
  unfold alignUp64
  omega

lemma alignUp64_mul_add_one (m : Nat) : alignUp64 (64 * m + 1) = 64 * (m + 1) := by
  unfold alignUp64
  omega

lemma alignUp64_mul64 (i : Nat) : ∃ m, alignUp64 i = 64 * m := by
  refine ⟨(i + 63) / 64, ?_⟩
  unfold alignUp64
  ring

/-- State of the source's inner newline loop after a further run of `k`
line breaks when the cursor sits just past a row boundary. -/
lemma consumeNewlines_replicate_one (k : Nat) : ∀ m : Nat,
    consumeNewlines (List.replicate k '\n') (64 * m + 1) 1 = ([], 64 * (m + k) + 1) := by
  induction k with
  | zero => intro m; rfl
  | succ k ih =>
    intro m
    rw [List.replicate_succ]
    show consumeNewlines (List.replicate k '\n') (alignUp64 (64 * m + 1) + 1) 1 = _
    rw [alignUp64_mul_add_one]
    rw [ih (m + 1)]
    congr 2
    omega

/-- Closed form for a run of `N ≥ 1` line breaks starting from cursor
`i`: the cursor moves to `alignUp64 i` when `N = 1` and to
`alignUp64 i + 64 * (N - 2) + 1` when `N ≥ 2` (the second line break
adds one slot; each further line break re-aligns a full row upward and
adds one slot). -/
lemma consumeNewlines_run (N i : Nat) (hN : 1 ≤ N) :
    consumeNewlines (List.replicate N '\n') i 0 =
      ([], if N = 1 then alignUp64 i else alignUp64 i + 64 * (N - 2) + 1) := by
  obtain ⟨m, hm⟩ := alignUp64_mul64 i
  match N, hN with
  | 1, _ =>
    rw [if_pos rfl]
    rfl
  | (k + 2), _ =>
    rw [if_neg (by omega)]
    rw [List.replicate_succ]
    show consumeNewlines (List.replicate (k + 1) '\n') (alignUp64 i + 0) 1 = _
    rw [Nat.add_zero, hm, List.replicate_succ]
    show consumeNewlines (List.replicate k '\n') (alignUp64 (64 * m) + 1) 1 = _
    rw [alignUp64_of_mul, consumeNewlines_replicate_one k m]
    congr 2
    omega

/-- C2, counterexample: starting from cursor 1 (after one character), a
run of three line breaks moves the cursor to 129, not to
`alignUp64 1 + (3 - 1) = 66` as the claim predicts; accordingly the
builder places the following character at slot 129, not 66. -/
theorem newline_run_not_align_plus_pred :
    consumeNewlines (List.replicate 3 '\n') 1 0 ≠ ([], alignUp64 1 + (3 - 1)) ∧
    consumeNewlines (List.replicate 3 '\n') 1 0 = ([], 129) ∧
    (buildCharset ['A', '\n', '\n', '\n', 'B'])[129]? = some 'B' ∧
    (buildCharset ['A', '\n', '\n', '\n', 'B'])[66]? ≠ some 'B' := by
  refine ⟨by decide, by decide, by decide, by decide⟩

/-- C2 (amended): processing one run of `N ≥ 1` consecutive line breaks
advances the output cursor to the next multiple of 64 for `N = 1`, and
for `N ≥ 2` to (next multiple of 64) + 64·(N−2) + 1: the second line
break of the run advances by exactly one slot, but each line break after
the second re-aligns a full row upward and then adds one slot.  In
particular a two-line-break run aligns and adds one slot, so building a
table from "A\n\nB" still places 'B' at 65. -/
theorem newline_run_cursor_formula :
    (∀ N i, 1 ≤ N →
      consumeNewlines (List.replicate N '\n') i 0 =
        ([], if N = 1 then alignUp64 i else alignUp64 i + 64 * (N - 2) + 1)) ∧
    (buildCharset ['A', '\n', '\n', 'B'])[65]? = some 'B' := by
  refine ⟨consumeNewlines_run, by decide⟩

/-- C2, witness for the amended theorem at `N = 2`, `i = 5`. -/
theorem newline_run_cursor_formula_w :
    consumeNewlines (List.replicate 2 '\n') 5 0 = ([], 65) := by
  have h := newline_run_cursor_formula.1 2 5 (by omega)
  simpa [alignUp64] using h

/-- C1, counterexample: the table built from the one-character input
"A" has length 1, which is not a multiple of the row width 64. -/
theorem charset_len_not_multiple_of_64 :
    (buildCharset ['A']).length = 1 ∧ ¬(64 ∣ (buildCharset ['A']).length) := by
  refine ⟨by decide, ?_⟩
  rw [show (buildCharset ['A']).length = 1 by decide]
  rintro ⟨c, hc⟩
  omega

lemma buildLoop_mem (s : List Char) : ∀ (i nl : Nat) (cs : List Char) (c : Char),
    c ∈ buildLoop s i nl cs → c = '\x00' ∨ c ∈ s ∨ c ∈ cs := by
  induction s with
  | nil =>
    intro i nl cs c h
    simp only [buildLoop] at h
    by_cases hnl : nl = 0
    · rw [if_pos hnl] at h
      exact Or.inr (Or.inr h)
    · rw [if_neg hnl] at h
      unfold resizeTo at h
      rcases List.mem_append.1 h with h1 | h2
      · exact Or.inr (Or.inr (List.take_subset _ _ h1))
      · exact Or.inl (List.eq_of_mem_replicate h2)
  | cons c0 rest ih =>
    intro i nl cs c h
    simp only [buildLoop] at h
    by_cases hc0 : c0 = '\n'
    · rw [if_pos hc0] at h
      rcases ih _ _ _ _ h with h1 | h2 | h3
      · exact Or.inl h1
      · exact Or.inr (Or.inl (List.mem_cons_of_mem _ h2))
      · exact Or.inr (Or.inr h3)
    · rw [if_neg hc0] at h
      rcases ih _ _ _ _ h with h1 | h2 | h3
      · exact Or.inl h1
      · exact Or.inr (Or.inl (List.mem_cons_of_mem _ h2))
      · rcases List.mem_or_eq_of_mem_set h3 with h4 | h5
        · unfold resizeTo at h4
          rcases List.mem_append.1 h4 with h6 | h7
          · exact Or.inr (Or.inr (List.take_subset _ _ h6))
          · exact Or.inl (List.eq_of_mem_replicate h7)
        · unfold writeChar at h5
          by_cases hw : i ≠ 0 ∧ c0 = ' '
          · rw [if_pos hw] at h5
            exact Or.inl h5
          · rw [if_neg hw] at h5
            exact Or.inr (Or.inl (h5 ▸ List.mem_cons_self c0 rest))

/-- C1 (amended): every entry of the table built by the Row-Aligned
Table Builder is either the null sentinel (all unwritten slots) or a
character of the input; the table length, however, is not in general a
multiple of the row width 64 (it equals the final output cursor). -/
theorem charset_entries_null_or_input :
    ∀ (s : List Char) (c : Char), c ∈ buildCharset s → c = '\x00' ∨ c ∈ s := by
  intro s c h
  rcases buildLoop_mem s 0 0 [] c h with h1 | h2 | h3
  · exact Or.inl h1
  · exact Or.inr h2
  · exact absurd h3 (List.not_mem_nil c)

/-- C1, witness for the amended theorem at the input "A". -/
theorem charset_entries_null_or_input_w :
    'A' = '\x00' ∨ 'A' ∈ ['A'] :=
  charset_entries_null_or_input ['A'] 'A' (by decide)

lemma buildLoopChecked_eq (s : List Char) : ∀ (i nl : Nat) (cs : List Char),
    buildLoopChecked s i nl cs = some (buildLoop s i nl cs) := by
  induction s with
  | nil => intro i nl cs; rfl
  | cons c0 rest ih =>
    intro i nl cs
    simp only [buildLoopChecked, buildLoop]
    by_cases hc0 : c0 = '\n'
    · rw [if_pos hc0, if_pos hc0]
      exact ih _ _ _
    · rw [if_neg hc0, if_neg hc0, if_pos (resizeTo_length cs (i + 1)).symm]
      exact ih _ _ _

/-- C10: every indexed write of the builder is in bounds: since the
table is first resized to `index + 1`, the write target always equals
the resized table's length minus one, so the guarded builder never
fails and agrees with the unguarded one on every input. -/
theorem charset_writes_in_bounds (s : List Char) :
    buildCharsetChecked s = some (buildCharset s) :=
  buildLoopChecked_eq s 0 0 []

lemma resizeTo_getElem? (cs : List Char) (n k : Nat) :
    (resizeTo cs n)[k]? =
      if k < n then (if k < cs.length then cs[k]? else some '\x00') else none := by
  unfold resizeTo
  have hlt : (List.take n cs).length = min n cs.length := List.length_take n cs
  by_cases h1 : k < (List.take n cs).length
  · rw [List.getElem?_append_left h1, List.getElem?_take]
    rw [if_pos (show k < n by omega), if_pos (show k < n by omega),
      if_pos (show k < cs.length by omega)]
  · rw [List.getElem?_append_right (by omega), List.getElem?_replicate, hlt]
    by_cases h2 : k < n
    · rw [if_pos (by omega), if_pos h2, if_neg (by omega)]
    · rw [if_neg (by omega), if_neg h2]

/-- No position greater than 0 of the table under construction ever
holds a space, provided none did before. -/
lemma buildLoop_no_space (s : List Char) : ∀ (i nl : Nat) (cs : List Char),
    (∀ k, 0 < k → cs[k]? ≠ some ' ') →
    ∀ k, 0 < k → (buildLoop s i nl cs)[k]? ≠ some ' ' := by
  induction s with
  | nil =>
    intro i nl cs hcs k hk
    simp only [buildLoop]
    by_cases hnl : nl = 0
    · rw [if_pos hnl]
      exact hcs k hk
    · rw [if_neg hnl, resizeTo_getElem?]
      by_cases h1 : k < i + 1
      · rw [if_pos h1]
        by_cases h2 : k < cs.length
        · rw [if_pos h2]
          exact hcs k hk
        · rw [if_neg h2]
          decide
      · rw [if_neg h1]
        decide
  | cons c0 rest ih =>
    intro i nl cs hcs k hk
    simp only [buildLoop]
    by_cases hc0 : c0 = '\n'
    · rw [if_pos hc0]
      exact ih _ _ _ hcs k hk
    · rw [if_neg hc0]
      refine ih _ _ _ ?_ k hk
      intro k2 hk2
      rw [List.getElem?_set]
      by_cases he : i = k2
      · rw [if_pos he]
        by_cases hb : i < (resizeTo cs (i + 1)).length
        · rw [if_pos hb]
          unfold writeChar
          by_cases hsp : c0 = ' '
          · rw [if_pos ⟨by omega, hsp⟩]
            decide
          · rw [if_neg (fun hh => hsp hh.2)]
            intro hco
            exact hsp (Option.some.inj hco)
        · rw [if_neg hb]
          decide
      · rw [if_neg he, resizeTo_getElem?]
        by_cases h1 : k2 < i + 1
        · rw [if_pos h1]
          by_cases h2 : k2 < cs.length
          · rw [if_pos h2]
            exact hcs k2 hk2
          · rw [if_neg h2]
            decide
        · rw [if_neg h1]
          decide

/-- Slot 0 of the table under construction is never changed once the
output cursor has moved past it. -/
lemma buildLoop_head (s : List Char) : ∀ (i nl : Nat) (cs : List Char) (x : Char),
    1 ≤ i → cs[0]? = some x → (buildLoop s i nl cs)[0]? = some x := by
  induction s with
  | nil =>
    intro i nl cs x hi hcs
    simp only [buildLoop]
    by_cases hnl : nl = 0
    · rw [if_pos hnl]
      exact hcs
    · rw [if_neg hnl, resizeTo_getElem?]
      have hlen : 0 < cs.length := by
        rcases List.getElem?_eq_some_iff.1 hcs with ⟨h, _⟩
        omega
      rw [if_pos (by omega), if_pos hlen]
      exact hcs
  | cons c0 rest ih =>
    intro i nl cs x hi hcs
    simp only [buildLoop]
    by_cases hc0 : c0 = '\n'
    · rw [if_pos hc0]
      exact ih _ _ _ _ (le_trans hi (le_trans (le_alignUp64 i) (Nat.le_add_right _ nl))) hcs
    · rw [if_neg hc0]
      refine ih _ _ _ _ (by omega) ?_
      rw [List.getElem?_set, if_neg (by omega), resizeTo_getElem?]
      have hlen : 0 < cs.length := by
        rcases List.getElem?_eq_some_iff.1 hcs with ⟨h, _⟩
        omega
      rw [if_pos (by omega), if_pos hlen]
      exact hcs

/-- C5: in the built table a space survives only at position 0: an
input starting with a space keeps that space at table position 0, and
no table position greater than 0 ever holds a space (an input space
written there is rewritten to the null sentinel). -/
theorem space_rule_table (s : List Char) :
    (s.head? = some ' ' → (buildCharset s)[0]? = some ' ') ∧
    (∀ k, 0 < k → (buildCharset s)[k]? ≠ some ' ') := by
  constructor
  · intro hh
    cases s with
    | nil => simp at hh
    | cons c0 rest =>
      have hc : c0 = ' ' := by simpa using hh
      subst hc
      show (buildLoop rest 1 0 [' '])[0]? = some ' '
      exact buildLoop_head rest 1 0 [' '] ' ' le_rfl rfl
  · intro k hk
    exact buildLoop_no_space s 0 0 [] (fun k2 _ => by simp) k hk

/-- C5, witness: for the input consisting of two spaces, position 0
keeps its space and position 1 does not hold a space. -/
theorem space_rule_table_w :
    (buildCharset [' ', ' '])[0]? = some ' ' ∧
    (buildCharset [' ', ' '])[1]? ≠ some ' ' :=
  ⟨(space_rule_table [' ', ' ']).1 rfl, (space_rule_table [' ', ' ']).2 1 (by omega)⟩

lemma set_append_length (cs : List Char) (w x : Char) :
    (cs ++ [x]).set cs.length w = cs ++ [w] := by
  induction cs with
  | nil => rfl
  | cons c0 rest ih =>
    simp only [List.cons_append, List.length_cons, List.set_cons_succ]
    rw [ih]

lemma resizeTo_exact (cs : List Char) : resizeTo cs (cs.length + 1) = cs ++ ['\x00'] := by
  unfold resizeTo
  rw [List.take_of_length_le (by omega)]
  congr 1
  rw [show cs.length + 1 - cs.length = 1 by omega]
  rfl

/-- On newline-free input the builder appends one slot per input
character, applying only the space rule. -/
lemma buildLoop_no_nl (s : List Char) : ∀ (i : Nat) (cs : List Char),
    '\n' ∉ s → cs.length = i → buildLoop s i 0 cs = cs ++ noNlTable i s := by
  induction s with
  | nil =>
    intro i cs h hl
    simp [buildLoop, noNlTable]
  | cons c0 rest ih =>
    intro i cs h hl
    have hc0 : c0 ≠ '\n' := fun e => h (e ▸ List.mem_cons_self c0 rest)
    simp only [buildLoop, if_neg hc0]
    rw [← hl, resizeTo_exact, set_append_length]
    rw [ih (cs.length + 1) (cs ++ [writeChar cs.length c0])
      (fun hm => h (List.mem_cons_of_mem _ hm)) (by simp)]
    simp [noNlTable, hl]

lemma noNlTable_length (s : List Char) : ∀ i, (noNlTable i s).length = s.length := by
  induction s with
  | nil => intro i; rfl
  | cons c0 rest ih =>
    intro i
    simp [noNlTable, ih]

lemma noNlTable_getElem? (s : List Char) : ∀ i k,
    (noNlTable i s)[k]? = (s[k]?).map (fun c => writeChar (i + k) c) := by
  induction s with
  | nil => intro i k; simp [noNlTable]
  | cons c0 rest ih =>
    intro i k
    match k with
    | 0 => simp [noNlTable]
    | k + 1 =>
      simp only [noNlTable, List.getElem?_cons_succ]
      rw [ih (i + 1) k, show i + (k + 1) = i + 1 + k from by omega]

/-- C9: for newline-free input the table has exactly one slot per input
character, holding that character, except that a space at a position
greater than 0 is replaced by the null sentinel. -/
theorem no_newline_table_exact (s : List Char) (h : '\n' ∉ s) :
    (buildCharset s).length = s.length ∧
    (∀ k c, s[k]? = some c →
      (buildCharset s)[k]? = some (if 0 < k ∧ c = ' ' then '\x00' else c)) := by
  have hb : buildCharset s = noNlTable 0 s := by
    have h0 := buildLoop_no_nl s 0 [] h rfl
    simpa [buildCharset] using h0
  constructor
  · rw [hb, noNlTable_length]
  · intro k c hk
    rw [hb, noNlTable_getElem?, hk]
    show some (writeChar (0 + k) c) = _
    congr 1
    unfold writeChar
    rw [Nat.zero_add]
    by_cases hks : k ≠ 0 ∧ c = ' '
    · rw [if_pos hks, if_pos ⟨by omega, hks.2⟩]
    · rw [if_neg hks, if_neg (fun hh => hks ⟨by omega, hh.2⟩)]

/-- C9, witness at the input "A ": length 2, 'A' kept at 0, and the
space at position 1 stored as the null sentinel. -/
theorem no_newline_table_exact_w :
    (buildCharset ['A', ' ']).length = 2 ∧
    (buildCharset ['A', ' '])[1]? = some '\x00' := by
  refine ⟨(no_newline_table_exact ['A', ' '] (by decide)).1, ?_⟩
  have h := (no_newline_table_exact ['A', ' '] (by decide)).2 1 ' ' rfl
  simpa using h

/- Consumption bounds for the grammar parsers. -/

lemma dropWhile_length_le (p : Char → Bool) (l : List Char) :
    (l.dropWhile p).length ≤ l.length :=
  List.Sublist.length_le (List.dropWhile_sublist p)

lemma pCodepoint_length {s r : List Char} {v : Nat}
    (h : pCodepoint s = some (v, r)) : r.length ≤ s.length := by
  unfold pCodepoint at h
  split at h
  · simp at h
  · split at h
    · simp at h
    · split at h
      · simp only [Option.some.injEq, Prod.mk.injEq] at h
        rw [← h.2]
        exact dropWhile_length_le _ _
      · simp at h

lemma pRangeSecond_length (s : List Char) : (pRangeSecond s).2.length ≤ s.length := by
  cases s with
  | nil => exact le_rfl
  | cons c0 s1 =>
    simp only [pRangeSecond]
    by_cases hc : c0 = '-'
    · rw [if_pos hc]
      cases h : pCodepoint s1 with
      | none => exact le_rfl
      | some br =>
        obtain ⟨b, r⟩ := br
        have h1 := pCodepoint_length h
        show r.length ≤ (c0 :: s1).length
        simp only [List.length_cons]
        omega
    · rw [if_neg hc]

lemma pRange_length {s r : List Char} {pr : Nat × Nat}
    (h : pRange s = some (pr, r)) : r.length ≤ s.length := by
  cases s with
  | nil => simp [pRange] at h
  | cons c0 s1 =>
    simp only [pRange] at h
    split at h
    · split at h
      · simp at h
      · rename_i a s2 heq
        split at h
        · rename_i c2 s4 heq2
          split at h
          · simp only [Option.some.injEq, Prod.mk.injEq] at h
            have h1 := pCodepoint_length heq
            have h2 := pRangeSecond_length s2
            rw [heq2] at h2
            simp only [List.length_cons] at h2
            rw [← h.2]
            simp only [List.length_cons]
            omega
          · simp at h
        · simp at h
    · simp at h

lemma pNotLineEnding_length {s tok r : List Char}
    (h : pNotLineEnding s = some (tok, r)) : r.length ≤ s.length := by
  simp only [pNotLineEnding] at h
  split at h
  · rename_i c tail heq
    split at h
    · split at h
      · split at h
        · simp only [Option.some.injEq, Prod.mk.injEq] at h
          rw [← h.2, ← heq]
          exact dropWhile_length_le _ _
        · simp at h
      · simp at h
    · simp only [Option.some.injEq, Prod.mk.injEq] at h
      rw [← h.2, ← heq]
      exact dropWhile_length_le _ _
  · simp only [Option.some.injEq, Prod.mk.injEq] at h
    rw [← h.2]
    exact Nat.zero_le _

lemma pMapping_length {s r : List Char} {m : PuaMapping}
    (h : pMapping s = some (m, r)) : r.length ≤ s.length := by
  simp only [pMapping] at h
  split at h
  · simp at h
  · rename_i lo hi s1 heq
    split at h
    · rename_i c s2
      split at h
      · split at h
        · simp at h
        · rename_i chs s3 heq2
          simp only [Option.some.injEq, Prod.mk.injEq] at h
          have h1 := pRange_length heq
          have h2 := pNotLineEnding_length heq2
          simp only [List.length_cons] at h1
          rw [← h.2]
          omega
      · simp at h
    · simp at h

lemma pLineEnding_length {s r : List Char}
    (h : pLineEnding s = some r) : r.length < s.length := by
  cases s with
  | nil => simp [pLineEnding] at h
  | cons c0 s1 =>
    simp only [pLineEnding] at h
    split at h
    · simp only [Option.some.injEq] at h
      rw [← h]
      simp
    · split at h
      · split at h
        · rename_i c2 r2
          split at h
          · simp only [Option.some.injEq] at h
            rw [← h]
            simp only [List.length_cons]
            omega
          · simp at h
        · simp at h
      · simp at h

/-- The `separated_list0` loop can never take its error exit: the
separator consumes at least one character, so separator plus element
never consume nothing. -/
lemma sepListLoop_ok (fuel : Nat) : ∀ (acc : List PuaMapping) (i : List Char),
    ∃ v, sepListLoop fuel acc i = Except.ok v := by
  induction fuel with
  | zero => intro acc i; exact ⟨(acc, i), rfl⟩
  | succ f ih =>
    intro acc i
    simp only [sepListLoop]
    cases hle : pLineEnding i with
    | none =>
      simp only [hle]
      exact ⟨(acc, i), rfl⟩
    | some i1 =>
      cases hm : pMapping i1 with
      | none =>
        simp only [hle, hm]
        exact ⟨(acc, i), rfl⟩
      | some mi2 =>
        obtain ⟨m, i2⟩ := mi2
        have h1 := pLineEnding_length hle
        have h2 := pMapping_length hm
        simp only [hle, hm]
        rw [if_neg (by omega)]
        exact ih _ _

lemma sepList0_ok (s : List Char) : ∃ v, sepList0 s = Except.ok v := by
  unfold sepList0
  cases hm : pMapping s with
  | none => exact ⟨([], s), rfl⟩
  | some ms1 =>
    obtain ⟨m, s1⟩ := ms1
    exact sepListLoop_ok s1.length [m] s1

lemma parseCompoundChMap_ok (s : List Char) :
    ∃ ms, parseCompoundChMap s = Except.ok ms := by
  unfold parseCompoundChMap
  obtain ⟨⟨ms, rest⟩, hv⟩ := sepList0_ok s
  rw [hv]
  exact ⟨expandMappings ms, rfl⟩

/-- C3, counterexample: the line "bad" does not match the declaration
grammar, yet parsing "[E01C]=meow\nbad" does not fail: it returns the
partial map built from the first line, silently dropping the bad
line. -/
theorem parse_partial_on_bad_line :
    pMapping (("bad").toList) = none ∧
    parseCompoundChMap (("[E01C]=meow\nbad").toList) =
      Except.ok [(0xE01C, ("meow").toList)] :=
  ⟨rfl, rfl⟩

/-- C3 (amended): parsing the compound-declaration resource is not
all-or-nothing: it never fails on any input; instead, when a separator
is followed by a line that does not match the grammar, the list loop
stops and returns the declarations accumulated so far, silently
dropping the first bad line and everything after it. -/
theorem parse_total_and_skips :
    (∀ s, ∃ ms, parseCompoundChMap s = Except.ok ms) ∧
    (∀ (fuel : Nat) (acc : List PuaMapping) (i i1 : List Char),
      pLineEnding i = some i1 → pMapping i1 = none →
      sepListLoop (fuel + 1) acc i = Except.ok (acc, i)) := by
  constructor
  · exact parseCompoundChMap_ok
  · intro fuel acc i i1 h1 h2
    simp only [sepListLoop, h1, h2]

/-- C3, witness for the amended theorem: a concrete parse with a bad
second line succeeds, and the list loop stops at that line. -/
theorem parse_total_and_skips_w :
    (∃ ms, parseCompoundChMap (("[E01C]=meow\nbad").toList) = Except.ok ms) ∧
    sepListLoop 1 [] (("\nbad").toList) = Except.ok ([], ("\nbad").toList) :=
  ⟨parse_total_and_skips.1 _,
   parse_total_and_skips.2 0 [] (("\nbad").toList) (("bad").toList) rfl rfl⟩

/- The overwrite-on-duplicate semantics of the map expansion. -/

lemma mapGet_foldl (cp : Nat) (ps : List (Nat × List Char)) :
    ∀ (a : Option (List Char)),
      ps.foldl (fun acc p => if p.1 = cp then some p.2 else acc) a =
        (mapGet ps cp).or a := by
  induction ps with
  | nil => intro a; rfl
  | cons p ps ih =>
    intro a
    show ps.foldl _ (if p.1 = cp then some p.2 else a) = _
    rw [ih]
    have hr : mapGet (p :: ps) cp = (mapGet ps cp).or (if p.1 = cp then some p.2 else none) := by
      show ps.foldl _ (if p.1 = cp then some p.2 else none) = _
      rw [ih]
    rw [hr]
    cases hm : mapGet ps cp with
    | some v => rfl
    | none =>
      by_cases hp : p.1 = cp
      · rw [if_pos hp, if_pos hp]
        rfl
      · rw [if_neg hp, if_neg hp]
        rfl

lemma mapGet_append (xs ys : List (Nat × List Char)) (cp : Nat) :
    mapGet (xs ++ ys) cp = (mapGet ys cp).or (mapGet xs cp) := by
  unfold mapGet
  rw [List.foldl_append]
  exact mapGet_foldl cp ys _

lemma mapGet_constmap (l : List Nat) (v : List Char) (cp : Nat) :
    mapGet (l.map (fun k => (k, v))) cp = if cp ∈ l then some v else none := by
  induction l with
  | nil => rfl
  | cons k ks ih =>
    show (ks.map _).foldl _ (if k = cp then some v else none) = _
    rw [mapGet_foldl, ih]
    by_cases h1 : cp ∈ ks
    · rw [if_pos h1, if_pos (List.mem_cons_of_mem _ h1)]
      rfl
    · rw [if_neg h1]
      by_cases h2 : k = cp
      · rw [if_pos h2, if_pos (List.mem_cons.2 (Or.inl h2.symm))]
        rfl
      · have hnm : ¬cp ∈ k :: ks := by
          simp only [List.mem_cons]
          rintro (e | hm)
          · exact h2 e.symm
          · exact h1 hm
        rw [if_neg h2, if_neg hnm]
        rfl

lemma mem_rangeList {lo hi cp : Nat} :
    cp ∈ rangeList lo hi ↔ (lo ≤ cp ∧ cp ≤ hi ∧ isScalarValue cp = true) := by
  unfold rangeList
  rw [List.mem_filter, List.mem_range'_1]
  constructor
  · rintro ⟨⟨h1, h2⟩, h3⟩
    exact ⟨h1, by omega, h3⟩
  · rintro ⟨h1, h2, h3⟩
    exact ⟨⟨h1, by omega⟩, h3⟩

lemma mapGet_expOne (m : PuaMapping) (cp : Nat) :
    mapGet (expOne m) cp = if coversB m cp = true then some m.ch else none := by
  unfold expOne
  rw [mapGet_constmap]
  by_cases h : cp ∈ rangeList m.lo m.hi
  · have hb : coversB m cp = true := by
      rcases mem_rangeList.1 h with ⟨h1, h2, h3⟩
      simp [coversB, h1, h2, h3]
    rw [if_pos h, if_pos hb]
  · have hb : ¬coversB m cp = true := by
      intro hcv
      apply h
      simp only [coversB, Bool.and_eq_true, decide_eq_true_eq] at hcv
      exact mem_rangeList.2 ⟨hcv.1.1, hcv.1.2, hcv.2⟩
    rw [if_neg h, if_neg hb]

lemma expandMappings_concat (ms : List PuaMapping) (a : PuaMapping) :
    expandMappings (ms ++ [a]) = expandMappings ms ++ expOne a := by
  unfold expandMappings
  rw [List.flatMap_append]
  simp

/-- C6: for every list of declarations, the expanded map sends a
codepoint covered by at least one declaration to the payload of the
last declaration (in file order) covering it; the expansion is total,
so no error or warning is ever produced for the collision. -/
theorem compound_last_decl_wins (ms : List PuaMapping) (cp : Nat) (m : PuaMapping)
    (h : (ms.filter (fun m0 => coversB m0 cp)).getLast? = some m) :
    mapGet (expandMappings ms) cp = some m.ch := by
  induction ms using List.reverseRecOn with
  | nil => simp at h
  | append_singleton ms a ih =>
    rw [List.filter_append] at h
    rw [expandMappings_concat, mapGet_append, mapGet_expOne]
    by_cases hc : coversB a cp = true
    · rw [if_pos hc]
      have hfa : List.filter (fun m0 => coversB m0 cp) [a] = [a] := by
        simp [hc]
      rw [hfa, List.getLast?_concat] at h
      injection h with h2
      rw [h2]
      rfl
    · rw [if_neg hc]
      have hfa : List.filter (fun m0 => coversB m0 cp) [a] = [] := by
        simp [hc]
      rw [hfa, List.append_nil] at h
      exact ih h

/-- C6, witness: two declarations covering U+E01C; the later payload
"bb" wins in the expanded map. -/
theorem compound_last_decl_wins_w :
    mapGet (expandMappings
      [⟨0xE01C, 0xE01D, ("aa").toList⟩, ⟨0xE01C, 0xE01C, ("bb").toList⟩]) 0xE01C =
      some (("bb").toList) :=
  compound_last_decl_wins
    [⟨0xE01C, 0xE01D, ("aa").toList⟩, ⟨0xE01C, 0xE01C, ("bb").toList⟩]
    0xE01C ⟨0xE01C, 0xE01C, ("bb").toList⟩ (by decide)

/-- C8: a range declaration whose first endpoint exceeds its second,
"[E01F-E01C]=x", is accepted by the grammar parser as a valid
declaration (consuming the whole line), and its expansion contributes
zero entries, so the whole resource parses to the empty map. -/
theorem reversed_range_accepted_empty :
    pMapping (("[E01F-E01C]=x").toList) =
      some (⟨0xE01F, 0xE01C, ("x").toList⟩, []) ∧
    expandMappings [⟨0xE01F, 0xE01C, ("x").toList⟩] = [] ∧
    parseCompoundChMap (("[E01F-E01C]=x").toList) = Except.ok [] :=
  ⟨rfl, rfl, rfl⟩

/- The missing-codepoint diagnostic of profile construction. -/

lemma mapGet_cons (p : Nat × List Char) (ps : List (Nat × List Char)) (cp : Nat) :
    mapGet (p :: ps) cp = (mapGet ps cp).or (if p.1 = cp then some p.2 else none) := by
  show ps.foldl _ (if p.1 = cp then some p.2 else none) = _
  rw [mapGet_foldl]

lemma mapGet_ne_none_mem {ps : List (Nat × List Char)} {cp : Nat}
    (h : mapGet ps cp ≠ none) : cp ∈ ps.map Prod.fst := by
  induction ps with
  | nil => exact absurd rfl h
  | cons p ps ih =>
    rw [mapGet_cons] at h
    simp only [List.map_cons, List.mem_cons]
    by_cases hm : mapGet ps cp = none
    · rw [hm] at h
      by_cases hp : p.1 = cp
      · exact Or.inl hp.symm
      · rw [if_neg hp] at h
        exact absurd rfl h
    · exact Or.inr (ih hm)

/-- C4: when some codepoint has an entry in the compound map but no
slot of the built charset table holds it, profile construction aborts
(it never silently succeeds), with the diagnostic built from the
profile's display name and the escaped missing codepoints; the missing
list contains every such codepoint. -/
theorem missing_pua_aborts (fullName csrc msrc : List Char)
    (cmap : List (Nat × List Char))
    (hp : parseCompoundChMap msrc = Except.ok cmap)
    (hmiss : ∃ cp, mapGet cmap cp ≠ none ∧
      ∀ c ∈ buildCharset (stripCR csrc), c.toNat ≠ cp) :
    gameDefNew fullName csrc msrc =
      Except.error (diagMsg fullName
        (encodingMapsMissing (buildCharset (stripCR csrc)) cmap)) ∧
    (∀ cp, mapGet cmap cp ≠ none →
      (∀ c ∈ buildCharset (stripCR csrc), c.toNat ≠ cp) →
      cp ∈ encodingMapsMissing (buildCharset (stripCR csrc)) cmap) := by
  have hmem : ∀ cp, mapGet cmap cp ≠ none →
      (∀ c ∈ buildCharset (stripCR csrc), c.toNat ≠ cp) →
      cp ∈ encodingMapsMissing (buildCharset (stripCR csrc)) cmap := by
    intro cp h1 h2
    unfold encodingMapsMissing
    rw [List.mem_filter]
    refine ⟨?_, ?_⟩
    · unfold mapKeys
      exact List.mem_dedup.2 (mapGet_ne_none_mem h1)
    · rw [List.all_eq_true]
      intro c hcmem
      simpa using h2 c hcmem
  have hne : encodingMapsMissing (buildCharset (stripCR csrc)) cmap ≠ [] := by
    obtain ⟨cp, h1, h2⟩ := hmiss
    exact List.ne_nil_of_mem (hmem cp h1 h2)
  have henc : encodingMapsNew (buildCharset (stripCR csrc)) cmap =
      Except.error (encodingMapsMissing (buildCharset (stripCR csrc)) cmap) := by
    unfold encodingMapsNew
    rw [if_neg (fun hemp => hne (List.isEmpty_iff.1 hemp))]
  refine ⟨?_, hmem⟩
  simp only [gameDefNew, hp, henc]

/-- C4, witness: charset "A", compound map "[E01C]=x"; U+E01C has a map
entry but no table slot holds it, so construction aborts with the
diagnostic. -/
theorem missing_pua_aborts_w :
    gameDefNew (("G").toList) (("A").toList) (("[E01C]=x").toList) =
      Except.error (diagMsg (("G").toList)
        (encodingMapsMissing (buildCharset (stripCR (("A").toList)))
          [(0xE01C, ("x").toList)])) :=
  (missing_pua_aborts (("G").toList) (("A").toList) (("[E01C]=x").toList)
    [(0xE01C, ("x").toList)] rfl
    ⟨0xE01C, by decide, by decide⟩).1

/- Alias lookup on the catalog. -/

/-- C7: alias lookup is an exact, case-sensitive string match: when no
profile's alias list contains the string the lookup returns the
non-fatal `none`, and when the catalog splits as `pre ++ d :: post`
with `d` the first profile whose alias list contains the string, the
lookup returns exactly `d`. -/
theorem alias_lookup_spec (ds : List GameDefMeta) (al : String) :
    ((∀ d ∈ ds, al ∉ d.aliases) → getByAlias ds al = none) ∧
    (∀ pre d post, ds = pre ++ d :: post → al ∈ d.aliases →
      (∀ d2 ∈ pre, al ∉ d2.aliases) → getByAlias ds al = some d) := by
  constructor
  · intro h
    unfold getByAlias
    rw [List.find?_eq_none]
    intro d hd hc
    exact h d hd (List.elem_iff.1 hc)
  · intro pre d post hds hal
    subst hds
    induction pre with
    | nil =>
      intro _
      exact List.find?_cons_of_pos _ (List.elem_iff.2 hal)
    | cons d0 pre ih =>
      intro hpre
      have h0 : ¬d0.aliases.contains al = true := by
        intro hc
        exact hpre d0 (List.mem_cons_self _ _) (List.elem_iff.1 hc)
      show List.find? _ (d0 :: (pre ++ d :: post)) = some d
      rw [@List.find?_cons_of_neg _ (fun d2 => d2.aliases.contains al) d0
        (pre ++ d :: post) h0]
      exact ih fun d2 hd2 => hpre d2 (List.mem_cons_of_mem _ hd2)

/-- C7, witness on the static catalog: "rn" (present, third entry)
resolves to Robotics;Notes, and "RN" (alias of no profile — matching is
case-sensitive) yields `none`. -/
theorem alias_lookup_spec_w :
    getByAlias DEFS "rn" = some ⟨"Robotics;Notes", ["rn", "roboticsnotes"]⟩ ∧
    getByAlias DEFS "RN" = none := by
  constructor
  · exact (alias_lookup_spec DEFS "rn").2
      [⟨"Steins;Gate Steam", ["sghd", "steinsgatehd"]⟩,
       ⟨"Steins;Gate Steam (Simplified Chinese)", ["sghdzhs", "steinsgatehdzhs"]⟩]
      ⟨"Robotics;Notes", ["rn", "roboticsnotes"]⟩
      [⟨"Steins;Gate: Linear Bounded Phenogram", ["sglbp", "steinsgatelbp"]⟩,
       ⟨"Steins;Gate 0", ["sg0", "steinsgate0"]⟩,
       ⟨"Steins;Gate 0 (Simplified Chinese)", ["sg0zhs", "steinsgate0zhs"]⟩,
       ⟨"Robotics;Notes DaSH", ["rnd", "roboticsnotesdash"]⟩]
      rfl (by decide) (by decide)
  · exact (alias_lookup_spec DEFS "RN").1 (by decide)
